import Mathlib

/-!
# Verification of the bulk-insertion engine (`insertion-set`)

A shallow embedding of the three source files of the repository:

* `src/sorting.rs` — stable in-place insertion sort (`insertion_sort_by`,
  `insertion_sort_by_key`);
* `src/shift.rs` — the `BulkShifter` tri-region buffer abstraction
  (`new`, `shift_original`, `push_shifted`, `is_finished`, `finish`);
* `src/lib.rs` — `Insertion`, `InsertionSet` (`sort`, `apply`, `applied`,
  `desired_insertions`, `compute_updated_locations`, `list_updated_locations`),
  the free functions `apply_bulk_insertions`, `compute_updated_locations` and
  `update_range`, and the `OriginalLocation` tag.

Vectors are modelled as `List`, `usize` as `Nat`.  Rust panics (`assert!`,
`expect`) are modelled by returning `none`; every operation that can fault
returns an `Option`.  Mutation is modelled by explicit state passing: the
`BulkShifter` state is a structure, and `InsertionSet::apply` returns the
post-call contents of both the target vector and the insertion queue.
-/

namespace InsertionSetModel

/-- `Insertion<T>` (src/lib.rs 27-35): a value pending insertion.  `index` is the
position in the *original* vector before which `element` is inserted. -/
structure Insertion (T : Type) where
  index : Nat
  element : T
deriving DecidableEq, Repr

/-! ## src/sorting.rs -/

/-- The inner `while` loop of `insertion_sort_by` (src/sorting.rs 18-22), with the
slice state made explicit: the slice is `before.reverse ++ x :: after` and the loop
counter is `j = before.length`.  While `j > 0` and `compare(target[j-1], target[j])`
is `Greater`, the two elements are swapped (the sinking element `x` moves one step
left); when the loop stops the slice is reassembled unchanged. -/
def sink {α : Type} (compare : α → α → Ordering) :
    List α → α → List α → List α
  | [], x, after => x :: after
  | y :: rest, x, after =>
    if compare y x = Ordering.gt then sink compare rest x (y :: after)
    else List.reverseAux rest (y :: x :: after)

/-- The outer `for i in 1..target.len()` loop of `insertion_sort_by`
(src/sorting.rs 17-23): `sortedPfx` is the already-processed slice prefix
`[0, i)` (in slice order); each step sinks the next element into it. -/
def isortGo {α : Type} (compare : α → α → Ordering) (sortedPfx : List α) :
    List α → List α
  | [] => sortedPfx
  | x :: rest => isortGo compare (sink compare sortedPfx.reverse x []) rest

/-- `insertion_sort_by` (src/sorting.rs 13-24): in-place insertion sort by an
`Ordering`-valued comparison (adjacent swaps while the left neighbour compares
`Greater`). -/
def insertion_sort_by {α : Type} (compare : α → α → Ordering)
    (target : List α) : List α :=
  match target with
  | [] => []
  | x :: rest => isortGo compare [x] rest

/-- `insertion_sort_by_key` (src/sorting.rs 31-37): insertion sort comparing
`key`-images with `Ord::cmp`. -/
def insertion_sort_by_key {α β : Type} [Ord β] (target : List α)
    (key : α → β) : List α :=
  insertion_sort_by (fun first second => compare (key first) (key second)) target

/-- Stable insertion of `x` into a list sorted by the `Nat`-valued `key`: `x` goes
after every element whose key is `≤ key x` and before the first strictly greater
one.  This is exactly where the swap loop of `insertion_sort_by` leaves a sunk
element inside an already-sorted prefix (proved in `sink_eq_insertAfterLe`). -/
def insertAfterLe {α : Type} (key : α → Nat) (x : α) : List α → List α
  | [] => [x]
  | y :: ys => if key x < key y then x :: y :: ys else y :: insertAfterLe key x ys

/-- A stable sort by a `Nat`-valued key, as a left fold of `insertAfterLe`.
`insertion_sort_by_key` computes it (proved in `insertion_sort_by_key_eq`), and it
also models `Vec::sort_by_key` in `InsertionSet::list_updated_locations`
(src/lib.rs 102): `Vec::sort_by_key` is a stable sort by the key, and all stable
comparison sorts of a list agree extensionally. -/
def stableSortBy {α : Type} (key : α → Nat) (l : List α) : List α :=
  l.foldl (fun acc x => insertAfterLe key x acc) []

/-! ## src/shift.rs -/

/-- `BulkShifter<'a, T>` (src/shift.rs 35-52).  `target` holds the original region
`[0, target.length)` of the buffer, `shifted` the contents of the shifted region
`[shifted_start, shifted_end)`; the gap `[target.length, shifted_start)` is
uninitialized memory and has no representation.  (`Vec::reserve` only affects
capacity, which the model does not track.) -/
structure BulkShifter (T : Type) where
  target : List T
  shifted : List T
  shifted_start : Nat
  shifted_end : Nat
deriving Repr

namespace BulkShifter

/-- `BulkShifter::new` (src/shift.rs 54-62): reserve room for
`desired_insertions` and start with an empty shifted region,
`shifted_start = shifted_end = target.len() + desired_insertions`. -/
def new {T : Type} (target : List T) (desired_insertions : Nat) : BulkShifter T :=
  { target := target
    shifted := []
    shifted_start := target.length + desired_insertions
    shifted_end := target.length + desired_insertions }

/-- `BulkShifter::len` (src/shift.rs 114-117): length of the valid original region. -/
def len {T : Type} (s : BulkShifter T) : Nat := s.target.length

/-- `BulkShifter::is_finished` (src/shift.rs 65-68): the gap is empty. -/
def is_finished {T : Type} (s : BulkShifter T) : Bool :=
  s.shifted_start == s.len

/-- `BulkShifter::shift_original` (src/shift.rs 76-103): move the run
`[start, len)` of original elements to the right end of the gap.  The two
`assert!`s become `none`; the `ptr::copy` becomes moving `target.drop start`
onto the front of the shifted region. -/
def shift_original {T : Type} (s : BulkShifter T) (start : Nat) :
    Option (BulkShifter T) :=
  if start ≤ s.len then
    let moved_memory := s.len - start
    if moved_memory = 0 then some s
    else if s.shifted_start ≥ moved_memory ∧
        start ≤ s.shifted_start - moved_memory then
      some { target := s.target.take start
             shifted := s.target.drop start ++ s.shifted
             shifted_start := s.shifted_start - moved_memory
             shifted_end := s.shifted_end }
    else none
  else none

/-- `BulkShifter::push_shifted` (src/shift.rs 106-112): write one value into the
rightmost free gap slot. -/
def push_shifted {T : Type} (s : BulkShifter T) (value : T) :
    Option (BulkShifter T) :=
  if s.shifted_start > s.len then
    some { s with shifted_start := s.shifted_start - 1
                  shifted := value :: s.shifted }
  else none

/-- `BulkShifter::finish` (src/shift.rs 119-125): requires `is_finished`, then the
whole buffer `[0, shifted_end)` = original region ++ shifted region is returned. -/
def finish {T : Type} (s : BulkShifter T) : Option (List T) :=
  if s.is_finished then some (s.target ++ s.shifted) else none

end BulkShifter

/-! ## src/lib.rs -/

/-- `OriginalLocation` (src/lib.rs 256-262): provenance of an output element. -/
inductive OriginalLocation : Type where
  | Insertion (k : Nat)
  | Original (i : Nat)
deriving DecidableEq, Repr

/-- The `while !shifter.is_finished()` loop of `apply_bulk_insertions`
(src/lib.rs 246-250) together with the trailing `shifter.finish()` and
`assert_eq!(insertions.len(), 0)` (251-252).  `ins` is the remaining content of
the insertion iterator; on success the result pairs the finished buffer with the
iterator's (necessarily empty) leftover. -/
def applyLoop {T : Type} (s : BulkShifter T) (ins : List (Insertion T)) :
    Option (List T × List (Insertion T)) :=
  if s.is_finished then
    match s.finish with
    | none => none
    | some r => if ins.length = 0 then some (r, ins) else none
  else
    match ins with
    | [] => none
    | i :: rest =>
      match s.shift_original i.index with
      | none => none
      | some s1 =>
        match s1.push_shifted i.element with
        | none => none
        | some s2 => applyLoop s2 rest

/-- `applyLoop` instrumented with the data-movement counters of the claim **C9**:
`moves` accumulates the `moved_memory` of every `shift_original` call (the
number of elements the `ptr::copy` in src/shift.rs 93-99 moves) and `pushes`
counts the `push_shifted` calls (one `ptr::write` each).  Apart from the two
counters it is step-for-step `applyLoop` (proved in `applyLoopCounted_proj`). -/
def applyLoopCounted {T : Type} (s : BulkShifter T) (ins : List (Insertion T))
    (moves pushes : Nat) : Option (List T × List (Insertion T) × Nat × Nat) :=
  if s.is_finished then
    match s.finish with
    | none => none
    | some r => if ins.length = 0 then some (r, ins, moves, pushes) else none
  else
    match ins with
    | [] => none
    | i :: rest =>
      match s.shift_original i.index with
      | none => none
      | some s1 =>
        match s1.push_shifted i.element with
        | none => none
        | some s2 =>
          applyLoopCounted s2 rest (moves + (s.len - i.index)) (pushes + 1)

/-- `apply_bulk_insertions` (src/lib.rs 214-253).  The iterator argument is the
list of items it will yield (its `ExactSizeIterator` length is the list length). -/
def apply_bulk_insertions {T : Type} (target : List T)
    (insertions : List (Insertion T)) : Option (List T × List (Insertion T)) :=
  applyLoop (BulkShifter.new target insertions.length) insertions

/-- `update_range` (src/lib.rs 309-320): the callback invocations, in order, for
the original range `[original_start, original_stop)` relocated to consecutive
final positions starting at `updated_start`. -/
def update_range (original_start original_stop updated_start : Nat) :
    List (OriginalLocation × Nat) :=
  (List.range (original_stop - original_start)).map
    (fun k => (OriginalLocation.Original (original_start + k), updated_start + k))

/-- The `while original_len != shifted_start` loop of the free function
`compute_updated_locations` (src/lib.rs 278-303), followed by the trailing
`for` loop (304-306) and `assert_eq!(insertions.len(), 0)` (307).  Callback
invocations are accumulated in `acc` in call order; `assert!`s and the
`expect` become `none`. -/
def culLoop (original_len shifted_start insertion_id : Nat) (ins : List Nat)
    (acc : List (OriginalLocation × Nat)) : Option (List (OriginalLocation × Nat)) :=
  if original_len = shifted_start then
    if ins.length = 0 then
      some (acc ++ (List.range original_len).map
        (fun original_index => (OriginalLocation.Original original_index, original_index)))
    else none
  else
    match ins with
    | [] => none
    | insertion_index :: rest =>
      if insertion_index ≤ original_len then
        let moved_memory := original_len - insertion_index
        if moved_memory > 0 then
          if shifted_start ≥ moved_memory ∧
              insertion_index ≤ shifted_start - moved_memory then
            if shifted_start - moved_memory > insertion_index then
              culLoop insertion_index (shifted_start - moved_memory - 1)
                (insertion_id + 1) rest
                (acc ++ update_range insertion_index original_len
                    (shifted_start - moved_memory) ++
                  [(OriginalLocation.Insertion insertion_id,
                    shifted_start - moved_memory - 1)])
            else none
          else none
        else
          if shifted_start > original_len then
            culLoop original_len (shifted_start - 1) (insertion_id + 1) rest
              (acc ++ [(OriginalLocation.Insertion insertion_id, shifted_start - 1)])
          else none
      else none

/-- The free function `compute_updated_locations` (src/lib.rs 267-308), with the
callback's invocation list returned instead of passed to a closure.  `insertions`
is the list of indices the iterator will yield. -/
def compute_updated_locations {T : Type} (target : List T)
    (insertions : List Nat) : Option (List (OriginalLocation × Nat)) :=
  culLoop target.length (target.length + insertions.length) 0 insertions []

/-- `InsertionSet<T>` (src/lib.rs 55-57): the queue of pending insertions, in
enqueue order. -/
structure InsertionSet (T : Type) where
  insertions : List (Insertion T)
deriving Repr

namespace InsertionSet

/-- `InsertionSet::desired_insertions` (src/lib.rs 90-93). -/
def desired_insertions {T : Type} (s : InsertionSet T) : Nat :=
  s.insertions.length

/-- `InsertionSet::sort` (src/lib.rs 150-170): stable insertion sort of the queue
by the `index` field. -/
def sort {T : Type} (s : InsertionSet T) : InsertionSet T :=
  ⟨insertion_sort_by_key s.insertions (fun insertion => insertion.index)⟩

/-- `InsertionSet::apply` (src/lib.rs 146-149): sort, then drain the queue
through `PoppingIter` (src/lib.rs 193-207), which yields the sorted queue from
the back, i.e. yields `sorted.reverse`, into `apply_bulk_insertions`.  Returns
the new vector contents together with the set as the call leaves it (the
elements `PoppingIter` did not pop, still in queue order). -/
def apply {T : Type} (s : InsertionSet T) (target : List T) :
    Option (List T × InsertionSet T) :=
  let sorted := (InsertionSet.sort s).insertions
  match apply_bulk_insertions target sorted.reverse with
  | none => none
  | some (result, unpopped) => some (result, ⟨unpopped.reverse⟩)

/-- `InsertionSet::applied` (src/lib.rs 85-88): apply and return the vector. -/
def applied {T : Type} (s : InsertionSet T) (target : List T) : Option (List T) :=
  (InsertionSet.apply s target).map (fun r => r.1)

end InsertionSet

/-- The insertion-index remapping performed by the closure in
`InsertionSet::compute_updated_locations` (src/lib.rs 123-136): a reversed
processing index `r` is reported as `batch_size - (r + 1)`; `Original`
locations pass through. -/
def remapInsertionIndex (batch_size : Nat) :
    OriginalLocation × Nat → OriginalLocation × Nat
  | (OriginalLocation.Insertion reversed_index, updated) =>
    (OriginalLocation.Insertion (batch_size - (reversed_index + 1)), updated)
  | p => p

namespace InsertionSet

/-- `InsertionSet::compute_updated_locations` (src/lib.rs 112-138): sort, feed
the reversed sorted indices to the free `compute_updated_locations`, and remap
reported insertion indices through `batch_size - (r + 1)`. -/
def compute_updated_locations {T : Type} (s : InsertionSet T)
    (target : List T) : Option (List (OriginalLocation × Nat)) :=
  let sorted := (InsertionSet.sort s).insertions
  (InsertionSetModel.compute_updated_locations target
      (sorted.reverse.map (fun insertion => insertion.index))).map
    (List.map (remapInsertionIndex sorted.length))

/-- `InsertionSet::list_updated_locations` (src/lib.rs 97-104): collect the
callback pairs and stably sort them by final position
(`result.sort_by_key(|&(_, updated)| updated)`). -/
def list_updated_locations {T : Type} (s : InsertionSet T)
    (target : List T) : Option (List (OriginalLocation × Nat)) :=
  (InsertionSet.compute_updated_locations s target).map
    (fun result => stableSortBy (fun p => p.2) result)

end InsertionSet

/-! ## Reference functions and proof-level recursions -/

/-- The reference merge described by claim **C1**: for each position `i` from `0`
to `len S`, the output contains every element of `B` whose index is `i`, in the
order they were enqueued, immediately before the original element `S[i]` (or at
the end when `i = len S`). -/
def referenceMerge {T : Type} (S : List T) (B : List (Insertion T)) : List T :=
  ((List.range (S.length + 1)).map
    (fun i => (B.filter (fun b => b.index == i)).map Insertion.element ++
      (S[i]?).toList)).flatten

/-- The vector built by the driver loop from the current original region `S` and
the remaining (reverse-sorted) batch `R`: each step truncates the original region
at the insertion's index and prepends the moved run, headed by the inserted
element, to the shifted region.  This is the recursion `applyLoop` computes
(proved in `applyLoop_eq`). -/
def mergeRev {T : Type} (S : List T) : List (Insertion T) → List T
  | [] => S
  | i :: rest => mergeRev (S.take i.index) rest ++ i.element :: S.drop i.index

/-- The callback-invocation list produced by the oracle loop `culLoop` from the
counters `(original_len, shifted_start, insertion_id)` and the remaining
reverse-sorted index list (proved equal to `culLoop`'s output in `culLoop_eq`). -/
def locRev (original_len shifted_start insertion_id : Nat) :
    List Nat → List (OriginalLocation × Nat)
  | [] => (List.range original_len).map
      (fun original_index => (OriginalLocation.Original original_index, original_index))
  | idx :: rest =>
    update_range idx original_len (shifted_start - (original_len - idx)) ++
      ((OriginalLocation.Insertion insertion_id,
          shifted_start - (original_len - idx) - 1) ::
        locRev idx (shifted_start - (original_len - idx) - 1)
          (insertion_id + 1) rest)

/-! ## Correctness of the ordering stage -/

section Sorting

variable {α : Type} (key : α → Nat)

theorem insertAfterLe_append_of_lt (x y : α) (l : List α) (h : key x < key y) :
    insertAfterLe key x (l ++ [y]) = insertAfterLe key x l ++ [y] := by
  induction l with
  | nil => simp [insertAfterLe, h]
  | cons z l ih =>
    by_cases hz : key x < key z
    · simp [insertAfterLe, hz]
    · simp [insertAfterLe, hz, ih]

theorem insertAfterLe_eq_append (x : α) (l : List α)
    (h : ∀ z ∈ l, ¬ key x < key z) :
    insertAfterLe key x l = l ++ [x] := by
  induction l with
  | nil => rfl
  | cons z l ih =>
    have hz : ¬ key x < key z := h z (by simp)
    simp [insertAfterLe, hz, ih (fun w hw => h w (by simp [hw]))]

theorem mem_insertAfterLe {x z : α} {l : List α} :
    z ∈ insertAfterLe key x l ↔ z = x ∨ z ∈ l := by
  induction l with
  | nil => simp [insertAfterLe]
  | cons y ys ih =>
    by_cases hxy : key x < key y
    · simp [insertAfterLe, hxy]
    · simp only [insertAfterLe, if_neg hxy, List.mem_cons, ih]
      tauto

theorem sink_eq_insertAfterLe (x : α) :
    ∀ (rev after : List α), List.Pairwise (fun a b => key b ≤ key a) rev →
    sink (fun a b => compare (key a) (key b)) rev x after =
      insertAfterLe key x rev.reverse ++ after := by
  intro rev
  induction rev with
  | nil => intro after _; simp [sink, insertAfterLe]
  | cons y rest ih =>
    intro after hp
    rw [List.pairwise_cons] at hp
    by_cases hyx : key x < key y
    · have hcmp : compare (key y) (key x) = Ordering.gt := Nat.compare_eq_gt.mpr hyx
      rw [sink, if_pos hcmp, ih (y :: after) hp.2, List.reverse_cons,
        insertAfterLe_append_of_lt key x y _ hyx]
      simp
    · have hcmp : ¬ compare (key y) (key x) = Ordering.gt := by
        simpa [Nat.compare_eq_gt] using hyx
      rw [sink, if_neg hcmp, List.reverse_cons, insertAfterLe_eq_append]
      · simp [List.reverseAux_eq]
      · intro z hz
        rcases List.mem_append.mp hz with hz | hz
        · rw [List.mem_reverse] at hz
          have := hp.1 z hz
          omega
        · have : z = y := by simpa using hz
          subst this
          omega

theorem pairwise_insertAfterLe (x : α) (l : List α)
    (h : List.Pairwise (fun a b => key a ≤ key b) l) :
    List.Pairwise (fun a b => key a ≤ key b) (insertAfterLe key x l) := by
  induction l with
  | nil => simp [insertAfterLe]
  | cons y ys ih =>
    rw [List.pairwise_cons] at h
    by_cases hxy : key x < key y
    · rw [insertAfterLe, if_pos hxy, List.pairwise_cons]
      constructor
      · intro z hz
        rcases List.mem_cons.mp hz with rfl | hz
        · omega
        · have := h.1 z hz
          omega
      · exact List.pairwise_cons.mpr h
    · rw [insertAfterLe, if_neg hxy, List.pairwise_cons]
      refine ⟨?_, ih h.2⟩
      intro z hz
      rcases (mem_insertAfterLe key).mp hz with rfl | hz
      · omega
      · exact h.1 z hz

theorem perm_insertAfterLe (x : α) (l : List α) :
    (insertAfterLe key x l).Perm (x :: l) := by
  induction l with
  | nil => exact List.Perm.refl _
  | cons y ys ih =>
    by_cases hxy : key x < key y
    · rw [insertAfterLe, if_pos hxy]
    · rw [insertAfterLe, if_neg hxy]
      exact (ih.cons y).trans (List.Perm.swap x y ys)

theorem filter_insertAfterLe (x : α) (k : Nat) (l : List α)
    (h : List.Pairwise (fun a b => key a ≤ key b) l) :
    (insertAfterLe key x l).filter (fun z => key z == k) =
      l.filter (fun z => key z == k) ++ if key x == k then [x] else [] := by
  induction l with
  | nil =>
    by_cases hxk : key x == k <;> simp [insertAfterLe, List.filter_cons, hxk]
  | cons y ys ih =>
    rw [List.pairwise_cons] at h
    by_cases hxy : key x < key y
    · rw [insertAfterLe, if_pos hxy]
      by_cases hxk : key x == k
      · have hx : key x = k := by simpa using hxk
        have hnil : (y :: ys).filter (fun z => key z == k) = [] := by
          rw [List.filter_eq_nil_iff]
          intro a ha
          rcases List.mem_cons.mp ha with rfl | ha
          · simp
            omega
          · have := h.1 a ha
            simp
            omega
        simp [List.filter_cons, hxk, hnil]
      · simp [List.filter_cons, hxk]
    · rw [insertAfterLe, if_neg hxy]
      rw [List.filter_cons, List.filter_cons, ih h.2]
      by_cases hyk : key y == k <;> simp [hyk]

theorem pairwise_stableFold :
    ∀ (l acc : List α), List.Pairwise (fun a b => key a ≤ key b) acc →
      List.Pairwise (fun a b => key a ≤ key b)
        (List.foldl (fun acc x => insertAfterLe key x acc) acc l) := by
  intro l
  induction l with
  | nil => intro acc h; exact h
  | cons x l ih =>
    intro acc h
    exact ih _ (pairwise_insertAfterLe key x acc h)

theorem pairwise_stableSortBy (l : List α) :
    List.Pairwise (fun a b => key a ≤ key b) (stableSortBy key l) :=
  pairwise_stableFold key l [] (by simp)

theorem perm_stableFold :
    ∀ (l acc : List α),
      (List.foldl (fun acc x => insertAfterLe key x acc) acc l).Perm (l ++ acc) := by
  intro l
  induction l with
  | nil => intro acc; exact List.Perm.refl _
  | cons x l ih =>
    intro acc
    exact ((ih _).trans
      (List.Perm.append_left l (perm_insertAfterLe key x acc))).trans
      List.perm_middle

theorem perm_stableSortBy (l : List α) : (stableSortBy key l).Perm l := by
  simpa using perm_stableFold key l []

theorem filter_stableFold :
    ∀ (l acc : List α) (k : Nat),
      List.Pairwise (fun a b => key a ≤ key b) acc →
      (List.foldl (fun acc x => insertAfterLe key x acc) acc l).filter
          (fun z => key z == k) =
        acc.filter (fun z => key z == k) ++ l.filter (fun z => key z == k) := by
  intro l
  induction l with
  | nil => intro acc k _; simp
  | cons x l ih =>
    intro acc k h
    rw [List.foldl_cons, ih _ k (pairwise_insertAfterLe key x acc h),
      filter_insertAfterLe key x k acc h, List.filter_cons]
    by_cases hxk : key x == k <;> simp [hxk]

theorem filter_stableSortBy (l : List α) (k : Nat) :
    (stableSortBy key l).filter (fun z => key z == k) =
      l.filter (fun z => key z == k) := by
  simpa using filter_stableFold key l [] k (by simp)

theorem isortGo_eq :
    ∀ (rest sortedPfx : List α),
      List.Pairwise (fun a b => key a ≤ key b) sortedPfx →
      isortGo (fun a b => compare (key a) (key b)) sortedPfx rest =
        List.foldl (fun acc x => insertAfterLe key x acc) sortedPfx rest := by
  intro rest
  induction rest with
  | nil => intro pfx _; rfl
  | cons x rest ih =>
    intro pfx hp
    have hrev : List.Pairwise (fun a b => key b ≤ key a) pfx.reverse :=
      List.pairwise_reverse.mpr hp
    rw [isortGo, List.foldl_cons,
      sink_eq_insertAfterLe key x pfx.reverse [] hrev, List.reverse_reverse,
      List.append_nil]
    exact ih _ (pairwise_insertAfterLe key x pfx hp)

theorem insertion_sort_by_key_eq (l : List α) :
    insertion_sort_by_key l key = stableSortBy key l := by
  cases l with
  | nil => rfl
  | cons x rest =>
    show isortGo (fun a b => compare (key a) (key b)) [x] rest = _
    rw [isortGo_eq key rest [x] (by simp)]
    rfl

end Sorting

/-! ## Correctness of the driver loop -/

theorem shift_original_eq {T : Type} (s : BulkShifter T) (start : Nat)
    (h1 : start ≤ s.target.length) (h2 : s.target.length ≤ s.shifted_start) :
    s.shift_original start = some
      { target := s.target.take start
        shifted := s.target.drop start ++ s.shifted
        shifted_start := s.shifted_start - (s.target.length - start)
        shifted_end := s.shifted_end } := by
  obtain ⟨t, sh, ss, se⟩ := s
  simp only [BulkShifter.shift_original, BulkShifter.len] at h1 h2 ⊢
  rw [if_pos h1]
  by_cases h0 : t.length - start = 0
  · have hs : start = t.length := by omega
    subst hs
    simp
  · rw [if_neg h0, if_pos ⟨by omega, by omega⟩]

theorem push_shifted_eq {T : Type} (s : BulkShifter T) (v : T)
    (h : s.target.length < s.shifted_start) :
    s.push_shifted v = some { s with shifted_start := s.shifted_start - 1
                                     shifted := v :: s.shifted } := by
  simp only [BulkShifter.push_shifted, BulkShifter.len]
  rw [if_pos h]

theorem length_mergeRev {T : Type} :
    ∀ (R : List (Insertion T)) (S : List T),
      List.Pairwise (fun a b => b.index ≤ a.index) R →
      (∀ i ∈ R, i.index ≤ S.length) →
      (mergeRev S R).length = S.length + R.length := by
  intro R
  induction R with
  | nil => intro S _ _; rfl
  | cons a rest ih =>
    intro S hp hb
    rw [List.pairwise_cons] at hp
    have ha : a.index ≤ S.length := hb a (by simp)
    have hlen : (S.take a.index).length = a.index := by
      simp [List.length_take]
      omega
    have hrec := ih (S.take a.index) hp.2
      (by intro i hi; rw [hlen]; exact hp.1 i hi)
    rw [mergeRev]
    simp only [List.length_append, List.length_cons, List.length_drop, hrec, hlen]
    omega

theorem applyLoop_eq {T : Type} :
    ∀ (R : List (Insertion T)) (s : BulkShifter T),
      List.Pairwise (fun a b => b.index ≤ a.index) R →
      (∀ i ∈ R, i.index ≤ s.target.length) →
      s.shifted_start = s.target.length + R.length →
      applyLoop s R = some (mergeRev s.target R ++ s.shifted, []) := by
  intro R
  induction R with
  | nil =>
    intro s _ _ hss
    have hfin : s.is_finished = true := by
      simp only [List.length_nil] at hss
      simp only [BulkShifter.is_finished, BulkShifter.len, beq_iff_eq]
      omega
    rw [applyLoop, if_pos hfin]
    simp [BulkShifter.finish, hfin, mergeRev]
  | cons i rest ih =>
    intro s hp hb hss
    rw [List.pairwise_cons] at hp
    have hfin : s.is_finished = false := by
      simp only [BulkShifter.is_finished, BulkShifter.len]
      have : s.shifted_start ≠ s.target.length := by
        simp only [List.length_cons] at hss
        omega
      simp [this]
    have hi : i.index ≤ s.target.length := hb i (by simp)
    have hlen1 : (s.target.take i.index).length = i.index := by
      simp [List.length_take]
      omega
    have h1 : s.shift_original i.index = some
        { target := s.target.take i.index
          shifted := s.target.drop i.index ++ s.shifted
          shifted_start := s.shifted_start - (s.target.length - i.index)
          shifted_end := s.shifted_end } :=
      shift_original_eq s i.index hi (by simp only [List.length_cons] at hss; omega)
    have h2 : BulkShifter.push_shifted
        { target := s.target.take i.index
          shifted := s.target.drop i.index ++ s.shifted
          shifted_start := s.shifted_start - (s.target.length - i.index)
          shifted_end := s.shifted_end } i.element = some
        { target := s.target.take i.index
          shifted := i.element :: (s.target.drop i.index ++ s.shifted)
          shifted_start := s.shifted_start - (s.target.length - i.index) - 1
          shifted_end := s.shifted_end } := by
      rw [push_shifted_eq _ i.element
        (by simp only [hlen1, List.length_cons] at *; omega)]
    have hrec := ih
      { target := s.target.take i.index
        shifted := i.element :: (s.target.drop i.index ++ s.shifted)
        shifted_start := s.shifted_start - (s.target.length - i.index) - 1
        shifted_end := s.shifted_end } hp.2
      (by intro j hj; simp only [hlen1]; exact hp.1 j hj)
      (by simp only [hlen1, List.length_cons] at *; omega)
    rw [applyLoop]
    simp only [hfin, Bool.false_eq_true, if_false, h1, h2, hrec]
    rw [mergeRev]
    simp

theorem flatten_range'_getElem {T : Type} :
    ∀ (m a : Nat) (S : List T), a + m = S.length + 1 →
      ((List.range' a m).map (fun i => (S[i]?).toList)).flatten = S.drop a := by
  intro m
  induction m with
  | zero =>
    intro a S h
    have hle : S.length ≤ a := by omega
    simp [List.drop_eq_nil_iff.mpr hle]
  | succ m ih =>
    intro a S h
    rw [List.range'_succ]
    simp only [List.map_cons, List.flatten_cons]
    by_cases ha : a < S.length
    · rw [List.getElem?_eq_getElem ha, ih (a + 1) S (by omega),
        List.drop_eq_getElem_cons ha]
      rfl
    · have ha' : a = S.length := by omega
      subst ha'
      have hm : m = 0 := by omega
      subst hm
      simp [List.getElem?_eq_none (Nat.le_refl _)]

theorem mergeRev_eq_referenceMerge {T : Type} :
    ∀ (R : List (Insertion T)) (S : List T),
      List.Pairwise (fun a b => b.index ≤ a.index) R →
      (∀ i ∈ R, i.index ≤ S.length) →
      mergeRev S R = referenceMerge S R.reverse := by
  intro R
  induction R with
  | nil =>
    intro S _ _
    show S = referenceMerge S ([] : List (Insertion T)).reverse
    rw [List.reverse_nil]
    unfold referenceMerge
    simp only [List.filter_nil, List.map_nil, List.nil_append, List.range_eq_range']
    have h0 := flatten_range'_getElem (S.length + 1) 0 S (by omega)
    rw [List.drop_zero] at h0
    exact h0.symm
  | cons a rest ih =>
    intro S hp hb
    rw [List.pairwise_cons] at hp
    have ha : a.index ≤ S.length := hb a (by simp)
    have hlen : (S.take a.index).length = a.index := by
      simp [List.length_take]
      omega
    have hL' : ∀ x ∈ rest.reverse, x.index ≤ a.index := by
      intro x hx
      exact hp.1 x (List.mem_reverse.mp hx)
    rw [mergeRev, ih (S.take a.index) hp.2
      (by intro j hj; rw [hlen]; exact hp.1 j hj), List.reverse_cons]
    unfold referenceMerge
    rw [hlen]
    rw [List.range_succ, List.map_append, List.flatten_append]
    have harith : (S.length + 1 - a.index) + a.index = S.length + 1 := by omega
    have hsplit := List.range'_append 0 a.index (S.length + 1 - a.index) 1
    simp only [Nat.zero_add, Nat.one_mul] at hsplit
    rw [harith] at hsplit
    simp only [List.range_eq_range']
    rw [← hsplit, List.map_append, List.flatten_append]
    have harith2 : S.length + 1 - a.index = (S.length - a.index) + 1 := by omega
    rw [harith2, List.range'_succ]
    simp only [List.map_cons, List.flatten_cons, List.map_nil, List.flatten_nil,
      List.append_nil]
    have hlow : ∀ i ∈ List.range' 0 a.index,
        (List.filter (fun b => b.index == i) (rest.reverse ++ [a])).map
            Insertion.element ++ (S[i]?).toList =
          (List.filter (fun b => b.index == i) rest.reverse).map
            Insertion.element ++ ((S.take a.index)[i]?).toList := by
      intro i hi
      rw [List.mem_range'_1] at hi
      have hilt : i < a.index := by omega
      have hne : (a.index == i) = false := by
        simp only [beq_eq_false_iff_ne, ne_eq]
        omega
      rw [List.filter_append]
      simp [List.filter_cons, hne, List.getElem?_take, hilt]
    have hhigh : ∀ i ∈ List.range' (a.index + 1) (S.length - a.index),
        (List.filter (fun b => b.index == i) (rest.reverse ++ [a])).map
            Insertion.element ++ (S[i]?).toList = (S[i]?).toList := by
      intro i hi
      rw [List.mem_range'_1] at hi
      have h1 : List.filter (fun b => b.index == i) (rest.reverse ++ [a]) = [] := by
        rw [List.filter_eq_nil_iff]
        intro x hx
        rcases List.mem_append.mp hx with hx | hx
        · have := hL' x hx
          simp only [beq_iff_eq]
          omega
        · have hxa : x = a := by simpa using hx
          subst hxa
          simp only [beq_iff_eq]
          omega
      rw [h1]
      simp
    rw [List.map_congr_left hlow, List.map_congr_left hhigh]
    have hD := flatten_range'_getElem (S.length - a.index) (a.index + 1) S (by omega)
    rw [hD]
    have hfj : List.filter (fun b => b.index == a.index) (rest.reverse ++ [a]) =
        List.filter (fun b => b.index == a.index) rest.reverse ++ [a] := by
      rw [List.filter_append]
      simp [List.filter_cons]
    rw [hfj]
    have hdrop : (S[a.index]?).toList ++ S.drop (a.index + 1) = S.drop a.index := by
      rcases Nat.lt_or_ge a.index S.length with hj | hj
      · rw [List.getElem?_eq_getElem hj, List.drop_eq_getElem_cons hj]
        rfl
      · have h1 : S.drop a.index = [] := List.drop_eq_nil_iff.mpr hj
        have h2 : S.drop (a.index + 1) = [] := List.drop_eq_nil_iff.mpr (by omega)
        rw [List.getElem?_eq_none hj, h1, h2]
        rfl
    have htk : ((S.take a.index)[a.index]?) = none := by
      simp [List.getElem?_take]
    rw [htk]
    simp only [Option.toList_none, List.append_nil, List.map_append,
      List.flatten_cons, List.flatten_nil, List.map_cons, List.map_nil]
    rw [← hdrop]
    simp [List.append_assoc]

theorem sorted_queue_pairwise {T : Type} (B : List (Insertion T)) :
    List.Pairwise (fun a b => a.index ≤ b.index)
      (insertion_sort_by_key B (fun insertion => insertion.index)) := by
  rw [insertion_sort_by_key_eq]
  exact pairwise_stableSortBy _ B

theorem sorted_queue_perm {T : Type} (B : List (Insertion T)) :
    (insertion_sort_by_key B (fun insertion => insertion.index)).Perm B := by
  rw [insertion_sort_by_key_eq]
  exact perm_stableSortBy _ B

theorem sorted_queue_filter {T : Type} (B : List (Insertion T)) (k : Nat) :
    (insertion_sort_by_key B (fun insertion => insertion.index)).filter
        (fun b => b.index == k) = B.filter (fun b => b.index == k) := by
  rw [insertion_sort_by_key_eq]
  exact filter_stableSortBy (fun insertion => insertion.index) B k

theorem apply_eq_of_valid {T : Type} (S : List T) (B : List (Insertion T))
    (hv : ∀ b ∈ B, b.index ≤ S.length) :
    InsertionSet.apply ⟨B⟩ S =
      some (mergeRev S
        ((insertion_sort_by_key B (fun insertion => insertion.index)).reverse),
        ⟨[]⟩) := by
  have hrev : List.Pairwise (fun a b => b.index ≤ a.index)
      (insertion_sort_by_key B (fun insertion => insertion.index)).reverse :=
    List.pairwise_reverse.mpr (sorted_queue_pairwise B)
  have hmem : ∀ i ∈
      (insertion_sort_by_key B (fun insertion => insertion.index)).reverse,
      i.index ≤ S.length := by
    intro i hi
    exact hv i ((sorted_queue_perm B).mem_iff.mp (List.mem_reverse.mp hi))
  have hloop := applyLoop_eq
    (insertion_sort_by_key B (fun insertion => insertion.index)).reverse
    (BulkShifter.new S
      (insertion_sort_by_key B (fun insertion => insertion.index)).reverse.length)
    hrev hmem (by simp [BulkShifter.new])
  unfold InsertionSet.apply InsertionSet.sort apply_bulk_insertions
  simp only [BulkShifter.new] at hloop ⊢
  rw [hloop]
  simp

theorem referenceMerge_congr_filter {T : Type} (S : List T)
    (B C : List (Insertion T))
    (h : ∀ k, B.filter (fun b => b.index == k) = C.filter (fun b => b.index == k)) :
    referenceMerge S B = referenceMerge S C := by
  unfold referenceMerge
  congr 1
  apply List.map_congr_left
  intro i _
  rw [h i]

theorem mergeRev_sorted_eq_referenceMerge {T : Type} (S : List T)
    (B : List (Insertion T)) (hv : ∀ b ∈ B, b.index ≤ S.length) :
    mergeRev S
        ((insertion_sort_by_key B (fun insertion => insertion.index)).reverse) =
      referenceMerge S B := by
  have hrev : List.Pairwise (fun a b => b.index ≤ a.index)
      (insertion_sort_by_key B (fun insertion => insertion.index)).reverse :=
    List.pairwise_reverse.mpr (sorted_queue_pairwise B)
  have hmem : ∀ i ∈
      (insertion_sort_by_key B (fun insertion => insertion.index)).reverse,
      i.index ≤ S.length := by
    intro i hi
    exact hv i ((sorted_queue_perm B).mem_iff.mp (List.mem_reverse.mp hi))
  rw [mergeRev_eq_referenceMerge _ S hrev hmem, List.reverse_reverse]
  exact referenceMerge_congr_filter S _ B (fun k => sorted_queue_filter B k)

theorem applied_valid {T : Type} (S : List T) (B : List (Insertion T))
    (hv : ∀ b ∈ B, b.index ≤ S.length) :
    InsertionSet.applied ⟨B⟩ S = some (referenceMerge S B) := by
  have hap := apply_eq_of_valid S B hv
  have hmerge := mergeRev_sorted_eq_referenceMerge S B hv
  rw [InsertionSet.applied, hap]
  simp [hmerge]

theorem referenceMerge_length {T : Type} (S : List T) (B : List (Insertion T))
    (hv : ∀ b ∈ B, b.index ≤ S.length) :
    (referenceMerge S B).length = S.length + B.length := by
  have hmerge := mergeRev_sorted_eq_referenceMerge S B hv
  have hrev : List.Pairwise (fun a b => b.index ≤ a.index)
      (insertion_sort_by_key B (fun insertion => insertion.index)).reverse :=
    List.pairwise_reverse.mpr (sorted_queue_pairwise B)
  have hmem : ∀ i ∈
      (insertion_sort_by_key B (fun insertion => insertion.index)).reverse,
      i.index ≤ S.length := by
    intro i hi
    exact hv i ((sorted_queue_perm B).mem_iff.mp (List.mem_reverse.mp hi))
  rw [← hmerge, length_mergeRev _ S hrev hmem, List.length_reverse,
    (sorted_queue_perm B).length_eq]

/-- **C1**: for every original vector `S` and every batch `B` whose indices are
all at most `len S`, `InsertionSet::applied` returns the reference merge of `S`
and `B` — each position `i` receives the insertions with index `i` in enqueue
order immediately before `S[i]` — and the output length is `len S + len B`. -/
theorem applied_eq_referenceMerge {T : Type} (S : List T) (B : List (Insertion T))
    (hv : ∀ b ∈ B, b.index ≤ S.length) :
    InsertionSet.applied ⟨B⟩ S = some (referenceMerge S B) ∧
      (referenceMerge S B).length = S.length + B.length :=
  ⟨applied_valid S B hv, referenceMerge_length S B hv⟩

/-- Witness for `applied_eq_referenceMerge` at the concrete repo-test input. -/
theorem applied_eq_referenceMerge_witness :
    (∀ b ∈ ([⟨0, 0⟩, ⟨1, 2⟩, ⟨1, 3⟩, ⟨4, 9⟩] : List (Insertion Nat)),
        b.index ≤ ([1, 4, 5, 7, 11] : List Nat).length) ∧
      (InsertionSet.applied ⟨[⟨0, 0⟩, ⟨1, 2⟩, ⟨1, 3⟩, ⟨4, 9⟩]⟩ [1, 4, 5, 7, 11] =
          some (referenceMerge [1, 4, 5, 7, 11] [⟨0, 0⟩, ⟨1, 2⟩, ⟨1, 3⟩, ⟨4, 9⟩]) ∧
        (referenceMerge [1, 4, 5, 7, 11]
            ([⟨0, 0⟩, ⟨1, 2⟩, ⟨1, 3⟩, ⟨4, 9⟩] : List (Insertion Nat))).length =
          ([1, 4, 5, 7, 11] : List Nat).length +
            ([⟨0, 0⟩, ⟨1, 2⟩, ⟨1, 3⟩, ⟨4, 9⟩] : List (Insertion Nat)).length) :=
  ⟨by decide, applied_eq_referenceMerge [1, 4, 5, 7, 11]
    [⟨0, 0⟩, ⟨1, 2⟩, ⟨1, 3⟩, ⟨4, 9⟩] (by decide)⟩

/-- **C8**: the ordering stage (`insertion_sort_by_key` on the `index` field)
produces a permutation of the input that is non-decreasing in `index`, and
insertions with equal index keep their original relative order (stability,
expressed as filter invariance at every index value). -/
theorem sort_stage_correct {T : Type} (l : List (Insertion T)) :
    (insertion_sort_by_key l (fun insertion => insertion.index)).Perm l ∧
      List.Pairwise (fun a b => a.index ≤ b.index)
        (insertion_sort_by_key l (fun insertion => insertion.index)) ∧
      ∀ k : Nat,
        (insertion_sort_by_key l (fun insertion => insertion.index)).filter
            (fun b => b.index == k) = l.filter (fun b => b.index == k) :=
  ⟨sorted_queue_perm l, sorted_queue_pairwise l, sorted_queue_filter l⟩

/-- **C4**: insertions of `B` sharing an index appear in the output of `applied`
in the relative order in which they were enqueued: for every index `i`, the
enqueue-ordered elements queued at `i` form a sublist of the result. -/
theorem applied_stable_at_equal_indices {T : Type} (S : List T)
    (B : List (Insertion T)) (hv : ∀ b ∈ B, b.index ≤ S.length) (i : Nat)
    (R : List T) (hR : InsertionSet.applied ⟨B⟩ S = some R) :
    ((B.filter (fun b => b.index == i)).map Insertion.element).Sublist R := by
  have h1 := applied_valid S B hv
  rw [hR] at h1
  obtain rfl : R = referenceMerge S B := Option.some.inj h1
  by_cases hi : i ≤ S.length
  · have harith : (S.length + 1 - i) + i = S.length + 1 := by omega
    have hsplit := List.range'_append 0 i (S.length + 1 - i) 1
    simp only [Nat.zero_add, Nat.one_mul] at hsplit
    rw [harith] at hsplit
    have harith2 : S.length + 1 - i = (S.length - i) + 1 := by omega
    unfold referenceMerge
    rw [List.range_eq_range', ← hsplit, harith2, List.range'_succ,
      List.map_append, List.flatten_append, List.map_cons, List.flatten_cons]
    exact ((List.sublist_append_left _ _).trans
      (List.sublist_append_left _ _)).trans (List.sublist_append_right _ _)
  · have hnil : B.filter (fun b => b.index == i) = [] := by
      rw [List.filter_eq_nil_iff]
      intro b hb
      have := hv b hb
      simp only [beq_iff_eq]
      omega
    rw [hnil]
    exact List.nil_sublist _

/-- Witness for `applied_stable_at_equal_indices`: the two insertions queued at
index 1 in the repo test appear in enqueue order inside the result. -/
theorem applied_stable_at_equal_indices_witness :
    (∀ b ∈ ([⟨0, 0⟩, ⟨1, 2⟩, ⟨1, 3⟩, ⟨4, 9⟩] : List (Insertion Nat)),
        b.index ≤ ([1, 4, 5, 7, 11] : List Nat).length) ∧
      ((([⟨0, 0⟩, ⟨1, 2⟩, ⟨1, 3⟩, ⟨4, 9⟩] : List (Insertion Nat)).filter
          (fun b => b.index == 1)).map Insertion.element).Sublist
        [0, 1, 2, 3, 4, 5, 7, 9, 11] :=
  ⟨by decide, applied_stable_at_equal_indices [1, 4, 5, 7, 11]
    [⟨0, 0⟩, ⟨1, 2⟩, ⟨1, 3⟩, ⟨4, 9⟩] (by decide) 1 [0, 1, 2, 3, 4, 5, 7, 9, 11] rfl⟩

/-- **C7**: the concrete scenario of the repository's tests: `S = [1,4,5,7,11]`,
`B = [(0,0), (1,2), (1,3), (4,9)]` in enqueue order; `applied` produces
`[0,1,2,3,4,5,7,9,11]` and `list_updated_locations` the expected
position-sorted mapping. -/
theorem concrete_scenario :
    InsertionSet.applied ⟨[⟨0, 0⟩, ⟨1, 2⟩, ⟨1, 3⟩, ⟨4, 9⟩]⟩ [1, 4, 5, 7, 11] =
        some [0, 1, 2, 3, 4, 5, 7, 9, 11] ∧
      InsertionSet.list_updated_locations ⟨[⟨0, 0⟩, ⟨1, 2⟩, ⟨1, 3⟩, ⟨4, 9⟩]⟩
          [1, 4, 5, 7, 11] =
        some [(OriginalLocation.Insertion 0, 0), (OriginalLocation.Original 0, 1),
          (OriginalLocation.Insertion 1, 2), (OriginalLocation.Insertion 2, 3),
          (OriginalLocation.Original 1, 4), (OriginalLocation.Original 2, 5),
          (OriginalLocation.Original 3, 6), (OriginalLocation.Insertion 3, 7),
          (OriginalLocation.Original 4, 8)] :=
  ⟨rfl, rfl⟩

theorem applyLoop_rest_eq_nil {T : Type} :
    ∀ (ins : List (Insertion T)) (s : BulkShifter T) (r : List T)
      (rest : List (Insertion T)),
      applyLoop s ins = some (r, rest) → rest = [] := by
  intro ins
  induction ins with
  | nil =>
    intro s r rest h
    simp only [applyLoop] at h
    split at h
    · split at h
      · exact Option.noConfusion h
      · simp only [List.length_nil, if_pos rfl] at h
        exact (Prod.mk.injEq _ _ _ _ ▸ Option.some.inj h).2.symm
    · exact Option.noConfusion h
  | cons i tail ih =>
    intro s r rest h
    simp only [applyLoop] at h
    split at h
    · split at h
      · exact Option.noConfusion h
      · simp only [List.length_cons] at h
        rw [if_neg (by omega)] at h
        exact Option.noConfusion h
    · split at h
      · exact Option.noConfusion h
      · split at h
        · exact Option.noConfusion h
        · exact ih _ r rest h

theorem apply_def {T : Type} (s : InsertionSet T) (target : List T) :
    InsertionSet.apply s target =
      match apply_bulk_insertions target
          ((InsertionSet.sort s).insertions).reverse with
      | none => none
      | some (result, unpopped) => some (result, ⟨unpopped.reverse⟩) := rfl

theorem apply_empty_set {T : Type} (v : List T) :
    InsertionSet.apply (⟨[]⟩ : InsertionSet T) v = some (v, ⟨[]⟩) := by
  have hfin : (BulkShifter.new v 0).is_finished = true := by
    simp [BulkShifter.new, BulkShifter.is_finished, BulkShifter.len]
  have hfinish : (BulkShifter.new v 0).finish = some v := by
    rw [BulkShifter.finish, if_pos hfin]
    simp [BulkShifter.new]
  have hloop : applyLoop (BulkShifter.new v 0) ([] : List (Insertion T)) =
      some (v, []) := by
    rw [applyLoop, if_pos hfin, hfinish]
    rfl
  rw [apply_def]
  show (match applyLoop (BulkShifter.new v 0) ([] : List (Insertion T)) with
    | none => none
    | some (result, unpopped) =>
        some (result, (⟨unpopped.reverse⟩ : InsertionSet T)))
      = some (v, ⟨[]⟩)
  rw [hloop]
  rfl

/-- **C10**: after a normal return of `InsertionSet::apply`, the queue is empty
(`desired_insertions` is `0`) and applying the drained set to any vector
returns that vector unchanged. -/
theorem apply_drains_queue {T : Type} (s : InsertionSet T) (target : List T)
    (r : List T) (s' : InsertionSet T)
    (h : InsertionSet.apply s target = some (r, s')) :
    s'.desired_insertions = 0 ∧
      ∀ v : List T, InsertionSet.apply s' v = some (v, s') := by
  have hs' : s' = ⟨[]⟩ := by
    rw [apply_def] at h
    rcases hh : apply_bulk_insertions target
        ((InsertionSet.sort s).insertions).reverse with _ | ⟨result, unpopped⟩
    · rw [hh] at h
      exact Option.noConfusion h
    · rw [hh] at h
      have hnil : unpopped = [] :=
        applyLoop_rest_eq_nil _ _ result unpopped hh
      subst hnil
      exact ((Prod.mk.injEq _ _ _ _ ▸ Option.some.inj h).2).symm
  subst hs'
  exact ⟨rfl, fun v => apply_empty_set v⟩

/-- Witness for `apply_drains_queue` at a concrete successful application. -/
theorem apply_drains_queue_witness :
    (InsertionSet.apply (⟨[⟨0, 5⟩]⟩ : InsertionSet Nat) [1] =
        some ([5, 1], ⟨[]⟩)) ∧
      (⟨[]⟩ : InsertionSet Nat).desired_insertions = 0 ∧
      InsertionSet.apply (⟨[]⟩ : InsertionSet Nat) [7, 8] = some ([7, 8], ⟨[]⟩) :=
  ⟨rfl, (apply_drains_queue ⟨[⟨0, 5⟩]⟩ [1] [5, 1] ⟨[]⟩ rfl).1,
    (apply_drains_queue ⟨[⟨0, 5⟩]⟩ [1] [5, 1] ⟨[]⟩ rfl).2 [7, 8]⟩

/-- **C5**: whenever some queued insertion's index strictly exceeds `len S`,
both `InsertionSet::apply` and `InsertionSet::compute_updated_locations` fault
(the bounds assertion fails, modelled by `none`); no result is produced. -/
theorem out_of_bounds_faults {T : Type} (S : List T) (B : List (Insertion T))
    (h : ∃ b ∈ B, S.length < b.index) :
    InsertionSet.apply ⟨B⟩ S = none ∧
      InsertionSet.compute_updated_locations ⟨B⟩ S = none := by
  obtain ⟨b, hbB, hbi⟩ := h
  have hbL : b ∈ insertion_sort_by_key B (fun insertion => insertion.index) :=
    (sorted_queue_perm B).mem_iff.mpr hbB
  obtain ⟨c, rev', hrev⟩ : ∃ c rev',
      (insertion_sort_by_key B (fun insertion => insertion.index)).reverse =
        c :: rev' := by
    cases hLrev : (insertion_sort_by_key B
        (fun insertion => insertion.index)).reverse with
    | nil =>
      rw [List.reverse_eq_nil_iff] at hLrev
      rw [hLrev] at hbL
      cases hbL
    | cons c rev' => exact ⟨c, rev', rfl⟩
  have hpair : List.Pairwise (fun a b => b.index ≤ a.index) (c :: rev') := by
    rw [← hrev]
    exact List.pairwise_reverse.mpr (sorted_queue_pairwise B)
  have hble : b.index ≤ c.index := by
    have hbrev : b ∈ c :: rev' := by
      rw [← hrev]
      exact List.mem_reverse.mpr hbL
    rcases List.mem_cons.mp hbrev with rfl | hmem
    · exact Nat.le_refl _
    · exact List.rel_of_pairwise_cons hpair hmem
  have hc : S.length < c.index := by omega
  constructor
  · rw [apply_def]
    show (match apply_bulk_insertions S
        ((insertion_sort_by_key B (fun insertion => insertion.index)).reverse) with
      | none => none
      | some (result, unpopped) =>
          some (result, (⟨unpopped.reverse⟩ : InsertionSet T))) = none
    rw [hrev]
    have hfin : (BulkShifter.new S (c :: rev').length).is_finished = false := by
      simp only [BulkShifter.new, BulkShifter.is_finished, BulkShifter.len,
        List.length_cons]
      simp only [beq_eq_false_iff_ne, ne_eq]
      omega
    have hso : (BulkShifter.new S (c :: rev').length).shift_original c.index =
        none := by
      rw [BulkShifter.shift_original,
        if_neg (by simp [BulkShifter.new, BulkShifter.len]; omega)]
    rw [apply_bulk_insertions, applyLoop]
    simp only [hfin, Bool.false_eq_true, if_false, hso]
  · rw [InsertionSet.compute_updated_locations]
    show (InsertionSetModel.compute_updated_locations S
        (((insertion_sort_by_key B
            (fun insertion => insertion.index)).reverse).map
          (fun insertion => insertion.index))).map
      (List.map (remapInsertionIndex
        (insertion_sort_by_key B (fun insertion => insertion.index)).length)) =
      none
    rw [hrev, List.map_cons, compute_updated_locations, culLoop]
    rw [if_neg (by simp only [List.length_cons]; omega)]
    rw [if_neg (by omega : ¬ c.index ≤ S.length)]
    rfl

/-- Witness for `out_of_bounds_faults` at a concrete out-of-range insertion. -/
theorem out_of_bounds_faults_witness :
    (∃ b ∈ ([⟨6, 99⟩] : List (Insertion Nat)),
        ([1, 4, 5, 7, 11] : List Nat).length < b.index) ∧
      InsertionSet.apply ⟨[⟨6, 99⟩]⟩ [1, 4, 5, 7, 11] = none ∧
      InsertionSet.compute_updated_locations ⟨[⟨6, 99⟩]⟩ [1, 4, 5, 7, 11] = none :=
  ⟨by decide, out_of_bounds_faults [1, 4, 5, 7, 11] [⟨6, 99⟩] (by decide)⟩

/-- **C6**: the `BulkShifter` tri-region invariant: `new` establishes
`len ≤ shifted_start ≤ shifted_end` with `shifted_end = len + m`; every
`shift_original` or `push_shifted` call that returns normally preserves the
invariant and leaves `shifted_end` unchanged; `finish` returns normally exactly
when `is_finished`, i.e. when `shifted_start` has come down to `len`. -/
theorem bulkShifter_invariants {T : Type} :
    (∀ (target : List T) (m : Nat),
        (BulkShifter.new target m).target.length ≤
            (BulkShifter.new target m).shifted_start ∧
          (BulkShifter.new target m).shifted_start ≤
            (BulkShifter.new target m).shifted_end ∧
          (BulkShifter.new target m).shifted_end = target.length + m) ∧
      (∀ (s : BulkShifter T) (start : Nat) (s' : BulkShifter T),
        s.target.length ≤ s.shifted_start → s.shifted_start ≤ s.shifted_end →
        s.shift_original start = some s' →
        s'.target.length ≤ s'.shifted_start ∧
          s'.shifted_start ≤ s'.shifted_end ∧
          s'.shifted_end = s.shifted_end) ∧
      (∀ (s : BulkShifter T) (v : T) (s' : BulkShifter T),
        s.target.length ≤ s.shifted_start → s.shifted_start ≤ s.shifted_end →
        s.push_shifted v = some s' →
        s'.target.length ≤ s'.shifted_start ∧
          s'.shifted_start ≤ s'.shifted_end ∧
          s'.shifted_end = s.shifted_end) ∧
      (∀ s : BulkShifter T, (∃ r, s.finish = some r) ↔ s.is_finished = true) := by
  refine ⟨?_, ?_, ?_, ?_⟩
  · intro target m
    simp [BulkShifter.new]
  · intro s start s' h1 h2 h
    simp only [BulkShifter.shift_original, BulkShifter.len] at h
    split_ifs at h with ha hb hc
    · obtain rfl : s = s' := Option.some.inj h
      exact ⟨h1, h2, rfl⟩
    · obtain rfl : _ = s' := Option.some.inj h
      refine ⟨?_, ?_, rfl⟩
      · simp only [List.length_take]
        omega
      · simp only
        omega
  · intro s v s' h1 h2 h
    rw [BulkShifter.push_shifted, BulkShifter.len] at h
    split_ifs at h with ha
    obtain rfl : _ = s' := Option.some.inj h
    refine ⟨by simp only; omega, by simp only; omega, rfl⟩
  · intro s
    rw [BulkShifter.finish]
    by_cases hf : s.is_finished
    · simp [hf]
    · simp [hf]

/-- Witness for `bulkShifter_invariants`: a concrete `shift_original` step
preserves the invariant. -/
theorem bulkShifter_invariants_witness :
    (([5, 6] : List Nat).length ≤ 3 ∧ (3 : Nat) ≤ 3) ∧
      ((⟨[5], [6], 2, 3⟩ : BulkShifter Nat).target.length ≤
          (⟨[5], [6], 2, 3⟩ : BulkShifter Nat).shifted_start ∧
        (⟨[5], [6], 2, 3⟩ : BulkShifter Nat).shifted_start ≤
          (⟨[5], [6], 2, 3⟩ : BulkShifter Nat).shifted_end ∧
        (⟨[5], [6], 2, 3⟩ : BulkShifter Nat).shifted_end =
          (⟨[5, 6], [], 3, 3⟩ : BulkShifter Nat).shifted_end) :=
  ⟨⟨by decide, by decide⟩,
    (bulkShifter_invariants (T := Nat)).2.1 ⟨[5, 6], [], 3, 3⟩ 1 ⟨[5], [6], 2, 3⟩
      (by decide) (by decide) rfl⟩

theorem applyLoopCounted_proj {T : Type} :
    ∀ (ins : List (Insertion T)) (s : BulkShifter T) (moves pushes : Nat),
      (applyLoopCounted s ins moves pushes).map (fun x => (x.1, x.2.1)) =
        applyLoop s ins := by
  intro ins
  induction ins with
  | nil =>
    intro s mv pu
    rw [applyLoopCounted, applyLoop]
    split
    · split
      · rfl
      · split
        · rfl
        · rfl
    · rfl
  | cons i tail ih =>
    intro s mv pu
    rw [applyLoopCounted, applyLoop]
    split
    · split
      · rfl
      · split
        · rfl
        · rfl
    · split
      · rfl
      · split
        · rfl
        · exact ih _ _ _

theorem applyLoopCounted_eq {T : Type} :
    ∀ (R : List (Insertion T)) (s : BulkShifter T) (moves pushes : Nat),
      List.Pairwise (fun a b => b.index ≤ a.index) R →
      (∀ i ∈ R, i.index ≤ s.target.length) →
      s.shifted_start = s.target.length + R.length →
      ∃ mv, applyLoopCounted s R moves pushes =
          some (mergeRev s.target R ++ s.shifted, [], moves + mv,
            pushes + R.length) ∧
        mv ≤ s.target.length := by
  intro R
  induction R with
  | nil =>
    intro s mv pu _ _ hss
    refine ⟨0, ?_, Nat.zero_le _⟩
    simp only [List.length_nil] at hss
    have hfin : s.is_finished = true := by
      simp only [BulkShifter.is_finished, BulkShifter.len, beq_iff_eq]
      omega
    rw [applyLoopCounted, if_pos hfin, BulkShifter.finish, if_pos hfin]
    simp [mergeRev]
  | cons i rest ih =>
    intro s mv pu hp hb hss
    rw [List.pairwise_cons] at hp
    have hfin : s.is_finished = false := by
      simp only [BulkShifter.is_finished, BulkShifter.len]
      have : s.shifted_start ≠ s.target.length := by
        simp only [List.length_cons] at hss
        omega
      simp [this]
    have hi : i.index ≤ s.target.length := hb i (by simp)
    have hlen1 : (s.target.take i.index).length = i.index := by
      simp [List.length_take]
      omega
    have h1 : s.shift_original i.index = some
        { target := s.target.take i.index
          shifted := s.target.drop i.index ++ s.shifted
          shifted_start := s.shifted_start - (s.target.length - i.index)
          shifted_end := s.shifted_end } :=
      shift_original_eq s i.index hi
        (by simp only [List.length_cons] at hss; omega)
    have h2 : BulkShifter.push_shifted
        { target := s.target.take i.index
          shifted := s.target.drop i.index ++ s.shifted
          shifted_start := s.shifted_start - (s.target.length - i.index)
          shifted_end := s.shifted_end } i.element = some
        { target := s.target.take i.index
          shifted := i.element :: (s.target.drop i.index ++ s.shifted)
          shifted_start := s.shifted_start - (s.target.length - i.index) - 1
          shifted_end := s.shifted_end } := by
      rw [push_shifted_eq _ i.element
        (by simp only [hlen1, List.length_cons] at *; omega)]
    obtain ⟨mv', heq, hle⟩ := ih
      { target := s.target.take i.index
        shifted := i.element :: (s.target.drop i.index ++ s.shifted)
        shifted_start := s.shifted_start - (s.target.length - i.index) - 1
        shifted_end := s.shifted_end }
      (mv + (s.len - i.index)) (pu + 1) hp.2
      (by intro j hj; simp only [hlen1]; exact hp.1 j hj)
      (by simp only [hlen1, List.length_cons] at *; omega)
    have hle2 : mv' ≤ i.index := by simpa [hlen1] using hle
    refine ⟨(s.target.length - i.index) + mv', ?_, by omega⟩
    rw [applyLoopCounted]
    simp only [hfin, Bool.false_eq_true, if_false, h1, h2, heq]
    rw [mergeRev]
    have e1 : mv + (BulkShifter.len s - i.index) + mv' =
        mv + (s.target.length - i.index + mv') := by
      simp only [BulkShifter.len]
      omega
    have e2 : pu + 1 + rest.length = pu + (i :: rest).length := by
      simp only [List.length_cons]
      omega
    rw [e1, e2]
    simp [List.append_assoc]

/-- **C9**: for a valid reverse-sorted batch `R`, `apply_bulk_insertions`
succeeds; the total number of elements moved by its `ptr::copy` calls is at most
`len S` (each original element moves at most once) and `push_shifted` runs
exactly once per insertion (each inserted element is written exactly once), so
total data movement is `O(len S + len R)`. -/
theorem apply_data_movement_linear {T : Type} (S : List T)
    (R : List (Insertion T))
    (hp : List.Pairwise (fun a b => b.index ≤ a.index) R)
    (hb : ∀ i ∈ R, i.index ≤ S.length) :
    ∃ res moves, applyLoopCounted (BulkShifter.new S R.length) R 0 0 =
        some (res, [], moves, R.length) ∧
      apply_bulk_insertions S R = some (res, []) ∧
      moves ≤ S.length := by
  obtain ⟨mv, heq, hle⟩ := applyLoopCounted_eq R (BulkShifter.new S R.length) 0 0
    hp (by intro i hi; simpa [BulkShifter.new] using hb i hi)
    (by simp [BulkShifter.new])
  simp only [BulkShifter.new, List.append_nil, Nat.zero_add] at heq hle
  refine ⟨mergeRev S R, mv, heq, ?_, hle⟩
  rw [apply_bulk_insertions, ← applyLoopCounted_proj R _ 0 0]
  simp only [BulkShifter.new]
  rw [heq]
  rfl

/-- Witness for `apply_data_movement_linear` at the repo test's reverse-sorted
batch. -/
theorem apply_data_movement_linear_witness :
    List.Pairwise (fun a b => b.index ≤ a.index)
        ([⟨4, 9⟩, ⟨1, 3⟩, ⟨1, 2⟩, ⟨0, 0⟩] : List (Insertion Nat)) ∧
      (∀ i ∈ ([⟨4, 9⟩, ⟨1, 3⟩, ⟨1, 2⟩, ⟨0, 0⟩] : List (Insertion Nat)),
        i.index ≤ ([1, 4, 5, 7, 11] : List Nat).length) ∧
      ∃ res moves,
        applyLoopCounted
            (BulkShifter.new [1, 4, 5, 7, 11]
              ([⟨4, 9⟩, ⟨1, 3⟩, ⟨1, 2⟩, ⟨0, 0⟩] : List (Insertion Nat)).length)
            [⟨4, 9⟩, ⟨1, 3⟩, ⟨1, 2⟩, ⟨0, 0⟩] 0 0 =
          some (res, [], moves,
            ([⟨4, 9⟩, ⟨1, 3⟩, ⟨1, 2⟩, ⟨0, 0⟩] : List (Insertion Nat)).length) ∧
        apply_bulk_insertions [1, 4, 5, 7, 11] [⟨4, 9⟩, ⟨1, 3⟩, ⟨1, 2⟩, ⟨0, 0⟩] =
          some (res, []) ∧
        moves ≤ ([1, 4, 5, 7, 11] : List Nat).length :=
  ⟨by decide, by decide,
    apply_data_movement_linear [1, 4, 5, 7, 11] [⟨4, 9⟩, ⟨1, 3⟩, ⟨1, 2⟩, ⟨0, 0⟩]
      (by decide) (by decide)⟩

/-! ## Correctness of the location-mapping oracle -/

theorem culLoop_eq :
    ∀ (R : List Nat) (ol ss id : Nat) (acc : List (OriginalLocation × Nat)),
      List.Pairwise (fun a b => b ≤ a) R →
      (∀ i ∈ R, i ≤ ol) →
      ss = ol + R.length →
      culLoop ol ss id R acc = some (acc ++ locRev ol ss id R) := by
  intro R
  induction R with
  | nil =>
    intro ol ss id acc _ _ hss
    simp only [List.length_nil, Nat.add_zero] at hss
    subst hss
    rw [culLoop, if_pos rfl, locRev]
    simp
  | cons idx rest ih =>
    intro ol ss id acc hp hb hss
    rw [List.pairwise_cons] at hp
    have hidx : idx ≤ ol := hb idx (by simp)
    simp only [List.length_cons] at hss
    simp only [culLoop]
    rw [if_neg (by omega)]
    rw [if_pos hidx]
    by_cases hm : ol - idx > 0
    · rw [if_pos hm, if_pos ⟨by omega, by omega⟩, if_pos (by omega)]
      rw [ih idx (ss - (ol - idx) - 1) (id + 1) _ hp.2
        (fun i hi => hp.1 i hi) (by omega)]
      rw [locRev]
      simp [List.append_assoc]
    · rw [if_neg hm, if_pos (by omega)]
      have hio : idx = ol := by omega
      subst hio
      rw [ih idx (ss - 1) (id + 1) _ hp.2 (fun i hi => hp.1 i hi) (by omega)]
      rw [locRev]
      simp [update_range, List.append_assoc]

theorem locRev_correspondence {T : Type} :
    ∀ (R : List (Insertion T)) (S : List T) (id : Nat),
      List.Pairwise (fun a b => b.index ≤ a.index) R →
      (∀ i ∈ R, i.index ≤ S.length) →
      ∀ (loc : OriginalLocation) (p : Nat),
        (loc, p) ∈ locRev S.length (S.length + R.length) id
            (R.map (fun insertion => insertion.index)) →
        (∀ i, loc = OriginalLocation.Original i →
            i < S.length ∧ (mergeRev S R)[p]? = S[i]?) ∧
          (∀ r, loc = OriginalLocation.Insertion r →
            ∃ q, r = id + q ∧ q < R.length ∧
              (mergeRev S R)[p]? = (R[q]?).map Insertion.element) := by
  intro R
  induction R with
  | nil =>
    intro S id _ _ loc p hmem
    rw [List.map_nil, locRev] at hmem
    obtain ⟨i, hi, heq⟩ := List.mem_map.mp hmem
    rw [List.mem_range] at hi
    cases heq
    constructor
    · intro j hj
      injection hj with hj
      subst hj
      exact ⟨hi, rfl⟩
    · intro r hr
      exact OriginalLocation.noConfusion hr
  | cons a rest ih =>
    intro S id hp hb loc p hmem
    rw [List.pairwise_cons] at hp
    have ha : a.index ≤ S.length := hb a (by simp)
    have hlen1 : (S.take a.index).length = a.index := by
      simp [List.length_take]
      omega
    have hlenM : (mergeRev (S.take a.index) rest).length = a.index + rest.length := by
      rw [length_mergeRev rest (S.take a.index) hp.2
        (by intro j hj; rw [hlen1]; exact hp.1 j hj), hlen1]
    rw [List.map_cons, locRev] at hmem
    have e1 : S.length + (a :: rest).length - (S.length - a.index) =
        a.index + rest.length + 1 := by
      simp only [List.length_cons]
      omega
    rw [e1] at hmem
    simp only [Nat.add_sub_cancel] at hmem
    have hM : mergeRev S (a :: rest) =
        mergeRev (S.take a.index) rest ++ a.element :: S.drop a.index := rfl
    rcases List.mem_append.mp hmem with hmem | hmem
    · -- a pair reported by `update_range`: an original element moved by this step
      obtain ⟨k, hk, heq⟩ := List.mem_map.mp hmem
      rw [List.mem_range] at hk
      cases heq
      constructor
      · intro j hj
        injection hj with hj
        subst hj
        refine ⟨by omega, ?_⟩
        rw [hM, List.getElem?_append_right (by rw [hlenM]; omega)]
        have e3 : a.index + rest.length + 1 + k -
            (mergeRev (S.take a.index) rest).length = k + 1 := by
          rw [hlenM]
          omega
        rw [e3, List.getElem?_cons_succ, List.getElem?_drop]
      · intro r hr
        exact OriginalLocation.noConfusion hr
    · rcases List.mem_cons.mp hmem with heq | hmem
      · -- the pair reported for this insertion itself
        injection heq with h1 h2
        subst h1
        subst h2
        constructor
        · intro j hj
          exact OriginalLocation.noConfusion hj
        · intro r hr
          injection hr with hr
          subst hr
          refine ⟨0, by omega, by simp, ?_⟩
          rw [hM, List.getElem?_append_right (by rw [hlenM]),
            hlenM]
          simp
      · -- a pair reported by the recursive call on the truncated original region
        have hmem' : (loc, p) ∈ locRev (S.take a.index).length
            ((S.take a.index).length + rest.length) (id + 1)
            (rest.map (fun insertion => insertion.index)) := by
          rw [hlen1]
          exact hmem
        have hrec := ih (S.take a.index) (id + 1) hp.2
          (by intro j hj; rw [hlen1]; exact hp.1 j hj) loc p hmem'
        constructor
        · intro j hj
          obtain ⟨hjlt, hjget⟩ := hrec.1 j hj
          rw [hlen1] at hjlt
          have hjget2 : (mergeRev (S.take a.index) rest)[p]? = S[j]? := by
            rw [hjget, List.getElem?_take, if_pos hjlt]
          refine ⟨by omega, ?_⟩
          have hplt : p < (mergeRev (S.take a.index) rest).length := by
            by_contra hge
            rw [List.getElem?_eq_none (by omega)] at hjget2
            rw [List.getElem?_eq_getElem (by omega : j < S.length)] at hjget2
            exact Option.noConfusion hjget2
          rw [hM, List.getElem?_append_left hplt, hjget2]
        · intro r hr
          obtain ⟨q, hq1, hq2, hq3⟩ := hrec.2 r hr
          refine ⟨q + 1, by omega, by simp only [List.length_cons]; omega, ?_⟩
          have hplt : p < (mergeRev (S.take a.index) rest).length := by
            by_contra hge
            rw [List.getElem?_eq_none (by omega)] at hq3
            rw [List.getElem?_eq_getElem hq2] at hq3
            exact Option.noConfusion hq3
          rw [hM, List.getElem?_append_left hplt, hq3, List.getElem?_cons_succ]

theorem compute_updated_locations_eq {T : Type} (S : List T)
    (B : List (Insertion T)) (hv : ∀ b ∈ B, b.index ≤ S.length) :
    InsertionSet.compute_updated_locations ⟨B⟩ S =
      some ((locRev S.length
          (S.length +
            (insertion_sort_by_key B (fun insertion => insertion.index)).length)
          0
          (((insertion_sort_by_key B
              (fun insertion => insertion.index)).reverse).map
            (fun insertion => insertion.index))).map
        (remapInsertionIndex
          (insertion_sort_by_key B (fun insertion => insertion.index)).length)) := by
  have hpair : List.Pairwise (fun a b => b ≤ a)
      (((insertion_sort_by_key B
          (fun insertion => insertion.index)).reverse).map
        (fun insertion => insertion.index)) := by
    rw [List.pairwise_map]
    exact List.pairwise_reverse.mpr (sorted_queue_pairwise B)
  have hbound : ∀ i ∈ (((insertion_sort_by_key B
      (fun insertion => insertion.index)).reverse).map
        (fun insertion => insertion.index)), i ≤ S.length := by
    intro i hi
    obtain ⟨x, hx, rfl⟩ := List.mem_map.mp hi
    exact hv x ((sorted_queue_perm B).mem_iff.mp (List.mem_reverse.mp hx))
  have hlen : (((insertion_sort_by_key B
      (fun insertion => insertion.index)).reverse).map
        (fun insertion => insertion.index)).length =
      (insertion_sort_by_key B (fun insertion => insertion.index)).length := by
    rw [List.length_map, List.length_reverse]
  rw [InsertionSet.compute_updated_locations]
  show (InsertionSetModel.compute_updated_locations S
      (((insertion_sort_by_key B
          (fun insertion => insertion.index)).reverse).map
        (fun insertion => insertion.index))).map
    (List.map (remapInsertionIndex
      (insertion_sort_by_key B (fun insertion => insertion.index)).length)) = _
  rw [compute_updated_locations, culLoop_eq _ _ _ _ _ hpair hbound (by rw [hlen]),
    hlen]
  rfl

theorem applied_eq_mergeRev {T : Type} (S : List T) (B : List (Insertion T))
    (hv : ∀ b ∈ B, b.index ≤ S.length) :
    InsertionSet.applied ⟨B⟩ S = some (mergeRev S
      ((insertion_sort_by_key B (fun insertion => insertion.index)).reverse)) := by
  rw [InsertionSet.applied, apply_eq_of_valid S B hv]
  rfl

/-- **C2 as stated is false**: with `S = [10]` and the batch enqueued as
`[(1,100), (0,200)]`, the materialized result is `[200,10,100]` and the mapping
pairs final position 0 with `Insertion(0)`, yet the element at position 0 is not
the element of the 0-th *enqueued* insertion (`100`): the reported number refers
to the sorted batch, not the enqueue order. -/
theorem list_updated_locations_enqueue_cex :
    InsertionSet.applied ⟨[⟨1, 100⟩, ⟨0, 200⟩]⟩ [10] = some [200, 10, 100] ∧
      InsertionSet.list_updated_locations ⟨[⟨1, 100⟩, ⟨0, 200⟩]⟩ [10] =
        some [(OriginalLocation.Insertion 0, 0), (OriginalLocation.Original 0, 1),
          (OriginalLocation.Insertion 1, 2)] ∧
      (OriginalLocation.Insertion 0, 0) ∈
        [(OriginalLocation.Insertion 0, 0), (OriginalLocation.Original 0, 1),
          (OriginalLocation.Insertion 1, 2)] ∧
      ¬ (([200, 10, 100] : List Nat)[0]? =
        ((([⟨1, 100⟩, ⟨0, 200⟩] : List (Insertion Nat))[0]?).map
          Insertion.element)) :=
  ⟨rfl, rfl, by decide, by decide⟩

/-- **C2 (amended)**: for valid `(S, B)`, the materialized result and the
location mapping agree, with insertion numbers referring to the *stably sorted*
batch (equal to enqueue order whenever the enqueued batch is already
non-decreasing by index): if the mapping pairs `(Original i, p)` then the
element at final position `p` equals `S[i]`, and if it pairs `(Insertion k, p)`
then it equals the element of the `k`-th insertion of the sorted batch. -/
theorem list_updated_locations_agrees_with_applied {T : Type} (S : List T)
    (B : List (Insertion T)) (hv : ∀ b ∈ B, b.index ≤ S.length)
    (R : List T) (M : List (OriginalLocation × Nat))
    (hR : InsertionSet.applied ⟨B⟩ S = some R)
    (hM : InsertionSet.list_updated_locations ⟨B⟩ S = some M)
    (loc : OriginalLocation) (p : Nat) (hmem : (loc, p) ∈ M) :
    (∀ i, loc = OriginalLocation.Original i → R[p]? = S[i]?) ∧
      (∀ k, loc = OriginalLocation.Insertion k →
        R[p]? = (((insertion_sort_by_key B
          (fun insertion => insertion.index))[k]?).map Insertion.element)) := by
  have hRv : R = mergeRev S
      ((insertion_sort_by_key B (fun insertion => insertion.index)).reverse) := by
    have := applied_eq_mergeRev S B hv
    rw [hR] at this
    exact Option.some.inj this
  have hMv : M = stableSortBy (fun pr => pr.2)
      ((locRev S.length
          (S.length +
            (insertion_sort_by_key B (fun insertion => insertion.index)).length)
          0
          (((insertion_sort_by_key B
              (fun insertion => insertion.index)).reverse).map
            (fun insertion => insertion.index))).map
        (remapInsertionIndex
          (insertion_sort_by_key B (fun insertion => insertion.index)).length)) := by
    rw [InsertionSet.list_updated_locations, compute_updated_locations_eq S B hv]
      at hM
    exact (Option.some.inj hM).symm
  have hmem2 : (loc, p) ∈ (locRev S.length
      (S.length +
        (insertion_sort_by_key B (fun insertion => insertion.index)).length)
      0
      (((insertion_sort_by_key B
          (fun insertion => insertion.index)).reverse).map
        (fun insertion => insertion.index))).map
      (remapInsertionIndex
        (insertion_sort_by_key B (fun insertion => insertion.index)).length) := by
    rw [hMv] at hmem
    exact (perm_stableSortBy (fun pr => pr.2) _).mem_iff.mp hmem
  obtain ⟨⟨loc0, p0⟩, hmem0, hremap⟩ := List.mem_map.mp hmem2
  have hlenrev : ((insertion_sort_by_key B
      (fun insertion => insertion.index)).reverse).length =
      (insertion_sort_by_key B (fun insertion => insertion.index)).length := by
    rw [List.length_reverse]
  have hcorr := locRev_correspondence
    ((insertion_sort_by_key B (fun insertion => insertion.index)).reverse) S 0
    (List.pairwise_reverse.mpr (sorted_queue_pairwise B))
    (by intro i hi
        exact hv i ((sorted_queue_perm B).mem_iff.mp (List.mem_reverse.mp hi)))
    loc0 p0 (by rw [hlenrev]; exact hmem0)
  cases loc0 with
  | Original i =>
    have hre : (loc, p) = (OriginalLocation.Original i, p0) := by
      rw [← hremap]
      rfl
    injection hre with hre1 hre2
    subst hre1
    subst hre2
    obtain ⟨hilt, hget⟩ := hcorr.1 i rfl
    constructor
    · intro j hj
      injection hj with hj
      subst hj
      rw [hRv]
      exact hget
    · intro k hk
      exact OriginalLocation.noConfusion hk
  | Insertion r =>
    obtain ⟨q, hq0, hqlt, hqget⟩ := hcorr.2 r rfl
    rw [Nat.zero_add] at hq0
    rw [← hq0] at hqlt hqget
    rw [hlenrev] at hqlt
    have hre : (loc, p) = (OriginalLocation.Insertion
        ((insertion_sort_by_key B (fun insertion => insertion.index)).length -
          (r + 1)), p0) := by
      rw [← hremap]
      rfl
    injection hre with hre1 hre2
    subst hre1
    subst hre2
    constructor
    · intro j hj
      exact OriginalLocation.noConfusion hj
    · intro k hk
      injection hk with hk
      subst hk
      rw [hRv, hqget]
      have hrevget : ((insertion_sort_by_key B
          (fun insertion => insertion.index)).reverse)[r]? =
          (insertion_sort_by_key B (fun insertion => insertion.index))[
            (insertion_sort_by_key B (fun insertion => insertion.index)).length -
              1 - r]? :=
        List.getElem?_reverse hqlt
      rw [hrevget, Nat.sub_sub, Nat.add_comm 1 r]


/-- Witness for `list_updated_locations_agrees_with_applied` at the repo-test
input: the slot that the mapping tags `Insertion(1)` (final position 2) holds
the element of the sorted batch's insertion number 1. -/
theorem list_updated_locations_agrees_with_applied_witness :
    (∀ b ∈ ([⟨0, 0⟩, ⟨1, 2⟩, ⟨1, 3⟩, ⟨4, 9⟩] : List (Insertion Nat)),
        b.index ≤ ([1, 4, 5, 7, 11] : List Nat).length) ∧
      ([0, 1, 2, 3, 4, 5, 7, 9, 11] : List Nat)[(2 : Nat)]? =
        (((insertion_sort_by_key
            ([⟨0, 0⟩, ⟨1, 2⟩, ⟨1, 3⟩, ⟨4, 9⟩] : List (Insertion Nat))
            (fun insertion => insertion.index))[(1 : Nat)]?).map
          Insertion.element) := by
  constructor
  · decide
  · have hR : InsertionSet.applied ⟨[⟨0, 0⟩, ⟨1, 2⟩, ⟨1, 3⟩, ⟨4, 9⟩]⟩
        [1, 4, 5, 7, 11] = some [0, 1, 2, 3, 4, 5, 7, 9, 11] := rfl
    have hM : InsertionSet.list_updated_locations
        ⟨[⟨0, 0⟩, ⟨1, 2⟩, ⟨1, 3⟩, ⟨4, 9⟩]⟩ [1, 4, 5, 7, 11] =
        some [(OriginalLocation.Insertion 0, 0), (OriginalLocation.Original 0, 1),
          (OriginalLocation.Insertion 1, 2), (OriginalLocation.Insertion 2, 3),
          (OriginalLocation.Original 1, 4), (OriginalLocation.Original 2, 5),
          (OriginalLocation.Original 3, 6), (OriginalLocation.Insertion 3, 7),
          (OriginalLocation.Original 4, 8)] := rfl
    exact (list_updated_locations_agrees_with_applied [1, 4, 5, 7, 11]
      [⟨0, 0⟩, ⟨1, 2⟩, ⟨1, 3⟩, ⟨4, 9⟩] (by decide)
      _ _ hR hM (OriginalLocation.Insertion 1) 2 (by decide)).2 1 rfl

/-- **C3 as stated is false**: with `S = [10]` and the batch enqueued as
`[(1,100), (0,200)]`, the element of enqueue-insertion number 0 (`100`, queued
as `(1,100)`) ends at final position 2, but `compute_updated_locations` tags
position 2 with `Insertion(1)` — the sorted-batch position — and not with
`Insertion(0)`. -/
theorem compute_updated_locations_enqueue_cex :
    InsertionSet.compute_updated_locations ⟨[⟨1, 100⟩, ⟨0, 200⟩]⟩ [10] =
        some [(OriginalLocation.Insertion 1, 2), (OriginalLocation.Original 0, 1),
          (OriginalLocation.Insertion 0, 0)] ∧
      (OriginalLocation.Insertion 1, 2) ∈
        [(OriginalLocation.Insertion 1, 2), (OriginalLocation.Original 0, 1),
          (OriginalLocation.Insertion 0, 0)] ∧
      ¬ ((OriginalLocation.Insertion 0, 2) ∈
        [(OriginalLocation.Insertion 1, 2), (OriginalLocation.Original 0, 1),
          (OriginalLocation.Insertion 0, 0)]) ∧
      InsertionSet.applied ⟨[⟨1, 100⟩, ⟨0, 200⟩]⟩ [10] = some [200, 10, 100] ∧
      ([200, 10, 100] : List Nat)[(2 : Nat)]? =
        ((([⟨1, 100⟩, ⟨0, 200⟩] : List (Insertion Nat))[(0 : Nat)]?).map
          Insertion.element) :=
  ⟨rfl, by decide, by decide, rfl, by decide⟩

/-- **C3 (amended)**: `compute_updated_locations` reports each inserted element
with tag `Insertion(k)` where `k = batch_size - (r + 1)` inverts the reversed
processing index `r`, i.e. `k` is the insertion's 0-based position in the batch
after the stable sort by index (equal to its enqueue position whenever the
enqueued batch is already non-decreasing by index): the `r`-th processed
insertion of the reversed sorted batch is what materializes at the reported
position. -/
theorem compute_updated_locations_inverts_reversed_index {T : Type}
    (S : List T) (B : List (Insertion T)) (hv : ∀ b ∈ B, b.index ≤ S.length)
    (M : List (OriginalLocation × Nat))
    (hM : InsertionSet.compute_updated_locations ⟨B⟩ S = some M)
    (R : List T) (hR : InsertionSet.applied ⟨B⟩ S = some R)
    (k p : Nat) (hmem : (OriginalLocation.Insertion k, p) ∈ M) :
    ∃ r, r < B.length ∧ k = B.length - (r + 1) ∧
      R[p]? = ((((insertion_sort_by_key B
        (fun insertion => insertion.index)).reverse)[r]?).map
        Insertion.element) := by
  have hRv : R = mergeRev S
      ((insertion_sort_by_key B (fun insertion => insertion.index)).reverse) := by
    have := applied_eq_mergeRev S B hv
    rw [hR] at this
    exact Option.some.inj this
  have hIen : (insertion_sort_by_key B
      (fun insertion => insertion.index)).length = B.length :=
    (sorted_queue_perm B).length_eq
  have hMv : M = (locRev S.length
      (S.length +
        (insertion_sort_by_key B (fun insertion => insertion.index)).length)
      0
      (((insertion_sort_by_key B
          (fun insertion => insertion.index)).reverse).map
        (fun insertion => insertion.index))).map
      (remapInsertionIndex
        (insertion_sort_by_key B (fun insertion => insertion.index)).length) := by
    rw [compute_updated_locations_eq S B hv] at hM
    exact (Option.some.inj hM).symm
  rw [hMv] at hmem
  obtain ⟨⟨loc0, p0⟩, hmem0, hremap⟩ := List.mem_map.mp hmem
  have hlenrev : ((insertion_sort_by_key B
      (fun insertion => insertion.index)).reverse).length =
      (insertion_sort_by_key B (fun insertion => insertion.index)).length := by
    rw [List.length_reverse]
  have hcorr := locRev_correspondence
    ((insertion_sort_by_key B (fun insertion => insertion.index)).reverse) S 0
    (List.pairwise_reverse.mpr (sorted_queue_pairwise B))
    (by intro i hi
        exact hv i ((sorted_queue_perm B).mem_iff.mp (List.mem_reverse.mp hi)))
    loc0 p0 (by rw [hlenrev]; exact hmem0)
  cases loc0 with
  | Original i =>
    have hre : (OriginalLocation.Original i, p0) =
        (OriginalLocation.Insertion k, p) := hremap
    injection hre with hre1 hre2
    exact OriginalLocation.noConfusion hre1
  | Insertion r =>
    obtain ⟨q, hq0, hqlt, hqget⟩ := hcorr.2 r rfl
    rw [Nat.zero_add] at hq0
    rw [← hq0] at hqlt hqget
    rw [hlenrev] at hqlt
    have hre : (OriginalLocation.Insertion
        ((insertion_sort_by_key B (fun insertion => insertion.index)).length -
          (r + 1)), p0) = (OriginalLocation.Insertion k, p) := hremap
    injection hre with hre1 hre2
    injection hre1 with hre1
    refine ⟨r, by omega, by rw [← hre1, hIen], ?_⟩
    rw [hre2] at hqget
    rw [hRv, hqget]

/-- Witness for `compute_updated_locations_inverts_reversed_index`: at the
repo-test input the pair `(Insertion 3, 7)` comes from reversed processing
index `r = 0`, and the element at position 7 is that of the last sorted
insertion `(4, 9)`. -/
theorem compute_updated_locations_inverts_reversed_index_witness :
    (∀ b ∈ ([⟨0, 0⟩, ⟨1, 2⟩, ⟨1, 3⟩, ⟨4, 9⟩] : List (Insertion Nat)),
        b.index ≤ ([1, 4, 5, 7, 11] : List Nat).length) ∧
      ∃ r, r < ([⟨0, 0⟩, ⟨1, 2⟩, ⟨1, 3⟩, ⟨4, 9⟩] : List (Insertion Nat)).length ∧
        (3 : Nat) =
          ([⟨0, 0⟩, ⟨1, 2⟩, ⟨1, 3⟩, ⟨4, 9⟩] : List (Insertion Nat)).length -
            (r + 1) ∧
        ([0, 1, 2, 3, 4, 5, 7, 9, 11] : List Nat)[(7 : Nat)]? =
          ((((insertion_sort_by_key
              ([⟨0, 0⟩, ⟨1, 2⟩, ⟨1, 3⟩, ⟨4, 9⟩] : List (Insertion Nat))
              (fun insertion => insertion.index)).reverse)[r]?).map
            Insertion.element) := by
  constructor
  · decide
  · have hM : InsertionSet.compute_updated_locations
        ⟨[⟨0, 0⟩, ⟨1, 2⟩, ⟨1, 3⟩, ⟨4, 9⟩]⟩ [1, 4, 5, 7, 11] =
        some [(OriginalLocation.Original 4, 8), (OriginalLocation.Insertion 3, 7),
          (OriginalLocation.Original 1, 4), (OriginalLocation.Original 2, 5),
          (OriginalLocation.Original 3, 6), (OriginalLocation.Insertion 2, 3),
          (OriginalLocation.Insertion 1, 2), (OriginalLocation.Original 0, 1),
          (OriginalLocation.Insertion 0, 0)] := rfl
    have hR : InsertionSet.applied ⟨[⟨0, 0⟩, ⟨1, 2⟩, ⟨1, 3⟩, ⟨4, 9⟩]⟩
        [1, 4, 5, 7, 11] = some [0, 1, 2, 3, 4, 5, 7, 9, 11] := rfl
    exact compute_updated_locations_inverts_reversed_index [1, 4, 5, 7, 11]
      [⟨0, 0⟩, ⟨1, 2⟩, ⟨1, 3⟩, ⟨4, 9⟩] (by decide) _ hM _ hR 3 7 (by decide)

end InsertionSetModel
